import Mathlib

/-!
Verification of the Instagram-agent core (memory, perception, decision, action
layers) of the instoma backend.  Python values flowing through the agent are
JSON-like dictionaries; we embed them as an inductive `Json` type with exact
rational numbers standing for Python ints/floats (the code under verification
performs only small-magnitude arithmetic where binary floating point and exact
rationals agree except on decimal rounding ties, which none of the proved
properties depend on).  Python strings are embedded as lists of characters.

External collaborators (the `json` stdlib decoder and the LLM client) are kept
abstract: functions that call `json.loads` take a `jsonLoads : Str → Option Json`
parameter, `none` standing for a raised `JSONDecodeError`.
-/

namespace Instoma

/-- Python strings, embedded as lists of characters. -/
abbrev Str := List Char

/-- JSON-like Python values.  `num` covers both Python `int` and `float`
(exact rationals; Python `1 == 1.0` holds, matching the single constructor).
`null` is Python `None`. -/
inductive Json where
  | null : Json
  | bool (b : Bool) : Json
  | num (q : ℚ) : Json
  | str (s : Str) : Json
  | arr (xs : List Json) : Json
  | obj (kvs : List (Str × Json)) : Json

mutual

/-- Structural (Python `==`) equality test on JSON-like values. -/
def Json.beq : Json → Json → Bool
  | .null, .null => true
  | .bool a, .bool b => a == b
  | .num a, .num b => a == b
  | .str a, .str b => a == b
  | .arr xs, .arr ys => Json.beqList xs ys
  | .obj xs, .obj ys => Json.beqObj xs ys
  | _, _ => false

def Json.beqList : List Json → List Json → Bool
  | [], [] => true
  | x :: xs, y :: ys => Json.beq x y && Json.beqList xs ys
  | _, _ => false

def Json.beqObj : List (Str × Json) → List (Str × Json) → Bool
  | [], [] => true
  | (k, v) :: xs, (k', v') :: ys => k == k' && Json.beq v v' && Json.beqObj xs ys
  | _, _ => false

end

mutual

theorem Json.beq_iff : ∀ (a b : Json), Json.beq a b = true ↔ a = b
  | .null, b => by cases b <;> simp [Json.beq]
  | .bool a, b => by cases b <;> simp [Json.beq]
  | .num a, b => by cases b <;> simp [Json.beq]
  | .str a, b => by cases b <;> simp [Json.beq]
  | .arr xs, b => by
      cases b with
      | arr ys => simpa [Json.beq] using Json.beqList_iff xs ys
      | _ => simp [Json.beq]
  | .obj xs, b => by
      cases b with
      | obj ys => simpa [Json.beq] using Json.beqObj_iff xs ys
      | _ => simp [Json.beq]

theorem Json.beqList_iff : ∀ (a b : List Json), Json.beqList a b = true ↔ a = b
  | [], b => by cases b <;> simp [Json.beqList]
  | x :: xs, b => by
      cases b with
      | nil => simp [Json.beqList]
      | cons y ys =>
          simp only [Json.beqList, Bool.and_eq_true, List.cons.injEq]
          exact and_congr (Json.beq_iff x y) (Json.beqList_iff xs ys)

theorem Json.beqObj_iff : ∀ (a b : List (Str × Json)), Json.beqObj a b = true ↔ a = b
  | [], b => by cases b <;> simp [Json.beqObj]
  | (k, v) :: xs, b => by
      cases b with
      | nil => simp [Json.beqObj]
      | cons kv ys =>
          obtain ⟨k', v'⟩ := kv
          simp only [Json.beqObj, Bool.and_eq_true, List.cons.injEq, Prod.mk.injEq]
          exact and_congr (and_congr (by simp) (Json.beq_iff v v')) (Json.beqObj_iff xs ys)

end

instance : DecidableEq Json := fun a b => decidable_of_iff _ (Json.beq_iff a b)

/-- A Python dictionary with string keys (insertion-ordered association list,
keys unique in all states the code constructs). -/
abbrev Dict := List (Str × Json)

/-- First binding of key `k`, i.e. Python `k in d` / `d[k]` lookup. -/
def dictLookup (k : Str) : Dict → Option Json
  | [] => none
  | (k', v) :: rest => if k' = k then some v else dictLookup k rest

/-- Python `d.get(k)`: the bound value, or `None` when the key is absent. -/
def dictGet (d : Dict) (k : Str) : Json :=
  (dictLookup k d).getD .null

/-- Python `d[k] = v`: replace the first binding of `k` in place, or append a
new binding at the end (dicts preserve insertion order). -/
def dictSet (d : Dict) (k : Str) (v : Json) : Dict :=
  match d with
  | [] => [(k, v)]
  | (k', v') :: rest => if k' = k then (k, v) :: rest else (k', v') :: dictSet rest k v

/-- Python truthiness of a JSON-like value (`if not username: ...`). -/
def jsonTruthy : Json → Bool
  | .null => false
  | .bool b => b
  | .num q => q != 0
  | .str s => !s.isEmpty
  | .arr xs => !xs.isEmpty
  | .obj kvs => !kvs.isEmpty

def usernameKey : Str := "username".toList
def scoreKey : Str := "score".toList
def errorKey : Str := "error".toList

/-! ## Memory layer (`memory.py`, class `AgentMemory`) -/

/-- The mutable session memory of the agent (`AgentMemory.__init__`).
Python sets are embedded as lists managed by `insertSet` (membership is all
that the code ever observes). -/
structure AgentMemory where
  users_metrics : List Dict
  iteration_responses : List Str
  processed_usernames : List Json
  scored_users : List Json
deriving DecidableEq

/-- A fresh memory: all collections empty. -/
def initMemory : AgentMemory := ⟨[], [], [], []⟩

/-- Python `set.add`: insert if not already a member. -/
def insertSet (x : Json) (s : List Json) : List Json :=
  if x ∈ s then s else s ++ [x]

/-- The update loop of `store_user_metrics`: replace the first record whose
`username` field equals `username` by `m`; `none` if no record matches. -/
def updateFirst (username : Json) (m : Dict) : List Dict → Option (List Dict)
  | [] => none
  | r :: rs =>
      if dictGet r usernameKey = username then some (m :: rs)
      else (updateFirst username m rs).map (r :: ·)

/-- `AgentMemory.store_user_metrics`: ignore records with a falsy `username`;
update the existing record in place if the username is already present
(without touching the processed set), else append the record and mark the
username processed. -/
def store_user_metrics (mem : AgentMemory) (metrics : Dict) : AgentMemory :=
  let username := dictGet metrics usernameKey
  if !jsonTruthy username then mem
  else
    match updateFirst username metrics mem.users_metrics with
    | some l => { mem with users_metrics := l }
    | none =>
        { mem with
          users_metrics := mem.users_metrics ++ [metrics],
          processed_usernames := insertSet username mem.processed_usernames }

/-- The loop of `store_user_score`: set the `score` field on the first record
whose `username` field equals `username`; `none` if no record matches. -/
def setScoreFirst (username : Json) (score : ℚ) : List Dict → Option (List Dict)
  | [] => none
  | r :: rs =>
      if dictGet r usernameKey = username then some (dictSet r scoreKey (.num score) :: rs)
      else (setScoreFirst username score rs).map (r :: ·)

/-- `AgentMemory.store_user_score`: find the record by username, set its
`score` field and mark the username scored; warn-and-return when absent. -/
def store_user_score (mem : AgentMemory) (username : Json) (score : ℚ) : AgentMemory :=
  match setScoreFirst username score mem.users_metrics with
  | some l => { mem with users_metrics := l, scored_users := insertSet username mem.scored_users }
  | none => mem

/-- `AgentMemory.update_users_list`: wholesale replacement of the record
collection; the processed/scored sets are not touched. -/
def update_users_list (mem : AgentMemory) (l : List Dict) : AgentMemory :=
  { mem with users_metrics := l }

/-- `AgentMemory.add_iteration_response`: pure append to the transcript. -/
def add_iteration_response (mem : AgentMemory) (r : Str) : AgentMemory :=
  { mem with iteration_responses := mem.iteration_responses ++ [r] }

/-- `AgentMemory.get_user_metrics`: first record whose `username` field equals
`username`, or `None`. -/
def get_user_metrics (mem : AgentMemory) (username : Json) : Option Dict :=
  mem.users_metrics.find? (fun r => dictGet r usernameKey = username)

/-- `AgentMemory.all_users_processed`: every given username is a member of the
processed set. -/
def all_users_processed (mem : AgentMemory) (all_usernames : List Json) : Bool :=
  all_usernames.all (fun u => decide (u ∈ mem.processed_usernames))

/-- One call to a mutating memory operation. -/
inductive MemOp where
  | storeMetrics (m : Dict)
  | storeScore (u : Json) (q : ℚ)
  | updateList (l : List Dict)
  | addResponse (r : Str)
deriving DecidableEq

/-- Apply one memory operation to a state. -/
def applyOp (mem : AgentMemory) : MemOp → AgentMemory
  | .storeMetrics m => store_user_metrics mem m
  | .storeScore u q => store_user_score mem u q
  | .updateList l => update_users_list mem l
  | .addResponse r => add_iteration_response mem r

/-- A session: the state after running a sequence of memory operations from a
fresh memory. -/
def applyOps (ops : List MemOp) : AgentMemory :=
  ops.foldl applyOp initMemory

/-! ## Action layer (`action.py`): scoring and ranking -/

/-- Python numeric coercion used by arithmetic on metric fields: ints and
floats are `num`, `True`/`False` act as `1`/`0`; any other value would raise
`TypeError` in Python, embedded as `none`. -/
def asNumber : Json → Option ℚ
  | .num q => some q
  | .bool b => some (if b then 1 else 0)
  | _ => none

/-- Round-half-to-even to an integer, the rounding used by Python `round`.
(Python rounds the binary double; on the magnitudes this program produces the
exact rational and the double agree except on ties invisible to the proved
properties.) -/
def roundHalfEven (q : ℚ) : ℤ :=
  let f := ⌊q⌋
  let frac := q - f
  if frac < 1/2 then f
  else if 1/2 < frac then f + 1
  else if f % 2 = 0 then f else f + 1

/-- Python `round(x, 2)`. -/
def round2 (q : ℚ) : ℚ :=
  (roundHalfEven (q * 100) : ℚ) / 100

def followersKey : Str := "followers_count".toList
def engagementKey : Str := "engagement_rate".toList
def mediaKey : Str := "media_count".toList

/-- `calculate_user_score` (`action.py`): records carrying an `error` key are
returned unchanged; otherwise three sub-scores are clamped from above at 100,
combined with weights 0.4/0.5/0.1 and stored (rounded to 2 decimal places)
under the `score` key.  A missing or non-numeric metric field raises
`KeyError`/`TypeError` in Python, embedded as `none`. -/
def calculate_user_score (metrics : Dict) : Option Dict :=
  if (dictLookup errorKey metrics).isSome then some metrics
  else do
    let fc ← (dictLookup followersKey metrics).bind asNumber
    let er ← (dictLookup engagementKey metrics).bind asNumber
    let mc ← (dictLookup mediaKey metrics).bind asNumber
    let followers_score := min 100 (fc / 1000 * 10)
    let engagement_score := min 100 (er * 10)
    let media_score := min 100 (mc / 10 * 10)
    let total_score :=
      followers_score * (4/10) + engagement_score * (5/10) + media_score * (1/10)
    some (dictSet metrics scoreKey (.num (round2 total_score)))

/-- The sort key of `rank_users`: Python `x.get("score", 0)`.  A present but
non-numeric score would make Python `sorted` raise; the ranking theorems
restrict to numeric scores by hypothesis. -/
def scoreKeyQ (r : Dict) : ℚ :=
  match dictLookup scoreKey r with
  | some (.num q) => q
  | _ => 0

/-- The comparator realizing `sorted(key=..., reverse=True)`: `a` may come
before `b` iff its score key is at least `b`'s (descending; ties broken by
original position through the stability of the sort). -/
def rankLE (a b : Dict) : Bool :=
  decide (scoreKeyQ b ≤ scoreKeyQ a)

/-- `rank_users` (`action.py`): `sorted(users_list, key=..., reverse=True)`,
i.e. a stable sort, non-increasing in the score key. -/
def rank_users (users_list : List Dict) : List Dict :=
  users_list.mergeSort rankLE

/-! ## Perception layer (`perception.py`): marker parsing of raw LLM text -/

/-- Python `str.strip` whitespace. -/
def isPyWS (c : Char) : Bool :=
  c == ' ' || c == '\t' || c == '\n' || c == '\r' || c == Char.ofNat 11 || c == Char.ofNat 12

/-- Python `str.strip()`. -/
def stripStr (s : Str) : Str :=
  ((s.dropWhile isPyWS).reverse.dropWhile isPyWS).reverse

/-- Index of the first occurrence of `pat` as a contiguous substring
(Python `str.find` when it succeeds). -/
def firstOccur (pat : Str) : Str → Option Nat
  | [] => if pat.isEmpty then some 0 else none
  | c :: rest =>
      if pat.isPrefixOf (c :: rest) then some 0
      else (firstOccur pat rest).map (· + 1)

/-- Python `pat in s` (substring containment). -/
def occurs (pat s : Str) : Bool :=
  (firstOccur pat s).isSome

/-- Worker of `removeAllSub`, with a length fuel to stay structurally
recursive. -/
def removeAllGo (pat : Str) : Nat → Str → Str
  | _, [] => []
  | 0, rest => rest
  | n + 1, c :: rest =>
      if !pat.isEmpty && pat.isPrefixOf (c :: rest) then
        removeAllGo pat n ((c :: rest).drop pat.length)
      else c :: removeAllGo pat n rest

/-- Python `s.replace(pat, "")`: remove every (left-to-right, non-overlapping)
occurrence of `pat`. -/
def removeAllSub (pat s : Str) : Str :=
  removeAllGo pat s.length s

/-- Python `s.split(sep, 1)`: the part before the first `sep`, and the rest
(`none` when `sep` does not occur). -/
def splitFirstAt (sep : Char) (s : Str) : Str × Option Str :=
  match firstOccur [sep] s with
  | some i => (s.take i, some (s.drop (i + 1)))
  | none => (s, none)

/-- Python `s.split(sep)` (full split; always at least one segment). -/
def splitAllAt (sep : Char) : Str → List Str
  | [] => [[]]
  | c :: rest =>
      if c = sep then [] :: splitAllAt sep rest
      else
        match splitAllAt sep rest with
        | seg :: segs => (c :: seg) :: segs
        | [] => [[c]]

def THmark : Str := "THINKING:".toList
def FCmark : Str := "FUNCTION_CALL:".toList
def VFmark : Str := "VERIFICATION:".toList
def FAmark : Str := "FINAL_ANSWER:".toList

/-- Parameters as the Python code passes them around: either a raw string
(from parsing) or a structured dict (from a memory redirect). -/
inductive PyParams where
  | str (s : Str)
  | dict (d : Dict)
deriving DecidableEq

/-- The tagged perception intents (`models.py`), one constructor per
`type` literal. -/
inductive PerceptionResponse where
  | thinking (content : Str)
  | function_call (function : Str) (params : PyParams)
  | verification (content : Str)
  | final_answer (content : Str)
  | mixed (thinking : Str) (function_call : Str)
  | error (content : Str)
  | unknown (content : Str)
deriving DecidableEq

/-- The `type` string of a perception intent (`models.py` literals). -/
def perceptionType : PerceptionResponse → Str
  | .thinking _ => "thinking".toList
  | .function_call _ _ => "function_call".toList
  | .verification _ => "verification".toList
  | .final_answer _ => "final_answer".toList
  | .mixed _ _ => "mixed".toList
  | .error _ => "error".toList
  | .unknown _ => "unknown".toList

/-- The marker-prefix chain of `parse_llm_response` (the part after the
mixed-format pre-processing). -/
def parseCore (t : Str) : PerceptionResponse :=
  if THmark.isPrefixOf t then
    .thinking (stripStr (removeAllSub THmark t))
  else if FCmark.isPrefixOf t then
    let function_info := stripStr (removeAllSub FCmark t)
    match splitFirstAt '|' function_info with
    | (a, some b) => .function_call (stripStr a) (.str (stripStr b))
    | (a, none) => .function_call (stripStr a) (.str [])
  else if VFmark.isPrefixOf t then
    .verification (stripStr (removeAllSub VFmark t))
  else if FAmark.isPrefixOf t then
    .final_answer (stripStr (removeAllSub FAmark t))
  else
    .unknown t

/-- `parse_llm_response` (`perception.py`): strip the raw text, carve out an
embedded `FUNCTION_CALL:` line when the text does not itself start with the
marker (a mixed intent when a `THINKING:` note precedes it), then dispatch on
the marker prefixes. -/
def parse_llm_response (raw : Str) : PerceptionResponse :=
  let t := stripStr raw
  if occurs FCmark t && !FCmark.isPrefixOf t then
    let fcPart := t.drop ((firstOccur FCmark t).getD 0)
    let fcLine := stripStr (fcPart.takeWhile (fun c => c ≠ '\n'))
    if THmark.isPrefixOf t then
      .mixed (stripStr (removeAllSub THmark (t.take ((firstOccur FCmark t).getD 0))))
        (stripStr (removeAllSub FCmark fcLine))
    else parseCore fcLine
  else parseCore t

/-! ## The verifier (`decision.py`, `verify_json_output`) -/

/-- Index of the last occurrence of character `c`. -/
def lastIdxOf (c : Char) : Str → Option Nat
  | [] => none
  | x :: rest =>
      match lastIdxOf c rest with
      | some i => some (i + 1)
      | none => if x = c then some 0 else none

def faPattern : Str := "FINAL_ANSWER: [".toList

/-- `re.search(r"FINAL_ANSWER: (\[.*\])", content, re.DOTALL)`: group 1 runs
from the `[` after the first occurrence of the terminal marker up to the last
`]` of the whole content (greedy `.*` under DOTALL); `none` when the pattern
does not match anywhere. -/
def finalAnswerMatch (content : Str) : Option Str :=
  match firstOccur faPattern content with
  | none => none
  | some p =>
      let bpos := p + faPattern.length - 1
      match lastIdxOf ']' content with
      | some q =>
          if bpos + 1 ≤ q then some ((content.drop bpos).take (q - bpos + 1)) else none
      | none => none

def followingKey : Str := "following_count".toList
def privateKey : Str := "is_private".toList
def verifiedKey : Str := "is_verified".toList
def pictureKey : Str := "profile_picture_url".toList

/-- Required integer field (pydantic lax mode accepts ints and integral
floats; string-to-number coercions are not modelled). -/
def isIntField (d : Dict) (k : Str) : Bool :=
  match dictLookup k d with
  | some (.num q) => q.den == 1
  | _ => false

/-- Required float field. -/
def isFloatField (d : Dict) (k : Str) : Bool :=
  match dictLookup k d with
  | some (.num _) => true
  | _ => false

/-- Required boolean field. -/
def isBoolField (d : Dict) (k : Str) : Bool :=
  match dictLookup k d with
  | some (.bool _) => true
  | _ => false

/-- Required string field. -/
def isStrField (d : Dict) (k : Str) : Bool :=
  match dictLookup k d with
  | some (.str _) => true
  | _ => false

/-- `InstagramCardProfileSchema.model_validate` on a decoded JSON value
(`instagram_card_profile_schema.py`): an object carrying all eight required
fields with the right shapes. -/
def validateProfile : Json → Bool
  | .obj kvs =>
      isStrField kvs usernameKey && isIntField kvs followersKey &&
      isIntField kvs followingKey && isIntField kvs mediaKey &&
      isBoolField kvs privateKey && isBoolField kvs verifiedKey &&
      isFloatField kvs engagementKey && isStrField kvs pictureKey
  | _ => false

/-- `verify_json_output` (`decision.py`): search for the terminal-marker
array literal, decode it, validate the first element; every failure path
(no pattern, decode error, index error on an empty array, validation error)
is caught and reported as `false` — the function is total and never raises. -/
def verify_json_output (jsonLoads : Str → Option Json) (content : Str) : Bool :=
  match finalAnswerMatch content with
  | none => false
  | some js =>
      match jsonLoads js with
      | none => false
      | some (.arr (x :: _)) => validateProfile x
      | some _ => false

/-- `verify_the_json_output` (`insta_agent.py`), the legacy revision of the
verifier: `json.loads` is not wrapped in a `try`, and its `except` clause
names `ValidationError`, which that module never imports, so a decode failure
and a shape-validation failure (and an empty decoded array) all escape as
raised exceptions, embedded as `none`. -/
def verify_the_json_output (jsonLoads : Str → Option Json) (content : Str) : Option Bool :=
  match finalAnswerMatch content with
  | none => some false
  | some js =>
      match jsonLoads js with
      | none => none
      | some (.arr (x :: _)) => if validateProfile x then some true else none
      | some _ => none

/-! ## Decision layer (`decision.py`, `determine_next_action`) -/

/-- The parameter payloads of a `DecisionOutput` (`models.py`). -/
inductive ActionParams where
  | thinkingP (content : Str)
  | functionCallP (function : Str) (params : PyParams) (thinking : Option Str)
  | verificationP (content : Str) (success : Bool)
  | finalAnswerP (content : Str) (ranked_users : Json)
deriving DecidableEq

/-- `DecisionOutput` (`models.py`): an action-type tag and its parameters. -/
structure DecisionOutput where
  action_type : Str
  action_params : ActionParams
deriving DecidableEq

/-- Rendering of a username into the f-string notes of the decision layer;
only string usernames are rendered (the exact wording of the notes is not
load-bearing for any property, and apostrophes of the original text are
elided). -/
def jsonText : Json → Str
  | .str s => s
  | _ => []

/-- The skip note emitted for an already processed and scored username. -/
def alreadyDoneMsg (username : Json) : Str :=
  "User ".toList ++ jsonText username ++
    " already has metrics and score. Let us move on to the next step.".toList

/-- The recovery note emitted for an unknown perception type. -/
def unknownTypeMsg (ty : Str) : Str :=
  "I received an unknown response type: ".toList ++ ty ++ ". Let me try again.".toList

/-- Username extraction of the `get_user_metrics` guard:
`params if isinstance(params, str) else params.get("username", "")`. -/
def extractUsername : PyParams → Json
  | .str s => .str s
  | .dict d => (dictLookup usernameKey d).getD (.str [])

/-- Python truthiness of the `Optional[Dict]` returned by
`get_user_metrics` (`None` and the empty dict are falsy). -/
def optDictTruthy : Option Dict → Bool
  | some d => !d.isEmpty
  | none => false

def backtickChar : Char := Char.ofNat 96

/-- The final-answer branch trims one backtick pair: `content[1:-1]` when the
content starts and ends with a backtick. -/
def stripBackticks (content : Str) : Str :=
  match content with
  | [] => []
  | c :: rest =>
      if c = backtickChar ∧ (c :: rest).getLast? = some backtickChar then rest.dropLast
      else c :: rest

/-- `determine_next_action` (`decision.py`).  The redundancy guard: a
`get_user_metrics` call for an already-processed username is redirected to a
score computation when the record still lacks a score, and to a skip note
when the user is already scored; every other intent maps through the
branches of the original `if`/`elif` chain.  (`usernames` is a parameter the
Python body never reads.) -/
def determine_next_action (jsonLoads : Str → Option Json) (pr : PerceptionResponse)
    (memory : AgentMemory) (usernames : List Str) : DecisionOutput :=
  match pr with
  | .function_call function_name params =>
      if function_name = "get_user_metrics".toList then
        let username := extractUsername params
        if username ∈ memory.processed_usernames then
          let user_metrics := get_user_metrics memory username
          if username ∉ memory.scored_users ∧ optDictTruthy user_metrics then
            ⟨"function_call".toList,
              .functionCallP "calculate_user_score".toList (.dict (user_metrics.getD [])) none⟩
          else
            ⟨"thinking".toList, .thinkingP (alreadyDoneMsg username)⟩
        else
          ⟨"function_call".toList, .functionCallP function_name params none⟩
      else
        ⟨"function_call".toList, .functionCallP function_name params none⟩
  | .thinking content => ⟨"thinking".toList, .thinkingP content⟩
  | .verification content =>
      let success := verify_json_output jsonLoads content
      ⟨(if success then "verification_success" else "verification_failed").toList,
        .verificationP content success⟩
  | .final_answer content =>
      match jsonLoads (stripBackticks content) with
      | some ranked => ⟨"final_answer".toList, .finalAnswerP content ranked⟩
      | none => ⟨"verification_failed".toList, .verificationP content false⟩
  | .mixed thinking fc =>
      let segs := splitAllAt '|' fc
      ⟨"mixed".toList,
        .functionCallP (stripStr (segs.getD 0 []))
          (.str (if fc.contains '|' then stripStr (segs.getD 1 []) else []))
          (some thinking)⟩
  | .error content => ⟨"thinking".toList, .thinkingP (unknownTypeMsg (perceptionType (.error content)))⟩
  | .unknown content => ⟨"thinking".toList, .thinkingP (unknownTypeMsg (perceptionType (.unknown content)))⟩

/-! ## Helper lemmas on dictionaries -/

theorem dictLookup_dictSet_self (d : Dict) (k : Str) (v : Json) :
    dictLookup k (dictSet d k v) = some v := by
  induction d with
  | nil => simp [dictSet, dictLookup]
  | cons kv rest ih =>
      obtain ⟨k', v'⟩ := kv
      by_cases h : k' = k <;> simp [dictSet, dictLookup, h, ih]

theorem dictLookup_dictSet_ne (d : Dict) (k k' : Str) (v : Json) (h : k' ≠ k) :
    dictLookup k' (dictSet d k v) = dictLookup k' d := by
  induction d with
  | nil => simp [dictSet, dictLookup, Ne.symm h]
  | cons kv rest ih =>
      obtain ⟨k₀, v₀⟩ := kv
      by_cases h0 : k₀ = k
      · subst h0
        simp [dictSet, dictLookup, Ne.symm h]
      · simp [dictSet, dictLookup, h0, ih]

theorem setScoreFirst_eq_none (u : Json) (q : ℚ) (l : List Dict)
    (h : ∀ r ∈ l, dictGet r usernameKey ≠ u) : setScoreFirst u q l = none := by
  induction l with
  | nil => rfl
  | cons r rs ih =>
      simp only [setScoreFirst]
      rw [if_neg (h r (by simp))]
      rw [ih (fun r' hr' => h r' (by simp [hr']))]
      rfl

/-! ## C8: `recordScore` on an absent identifier is a no-op -/

/-- C8: for every identifier absent from the working collection and every
score, `store_user_score` leaves the memory state exactly unchanged: no
record is fabricated, the collection is untouched, and the identifier is not
added to the scored set. -/
theorem store_user_score_absent_noop (mem : AgentMemory) (u : Json) (q : ℚ)
    (h : ∀ r ∈ mem.users_metrics, dictGet r usernameKey ≠ u) :
    store_user_score mem u q = mem := by
  unfold store_user_score
  rw [setScoreFirst_eq_none u q _ h]

/-- Witness for C8 at a concrete memory holding only a record for `"a"` and a
score request for the absent `"b"`. -/
theorem store_user_score_absent_noop_witness :
    store_user_score
        ⟨[[(usernameKey, .str "a".toList)]], [], [.str "a".toList], []⟩
        (.str "b".toList) 5
      = ⟨[[(usernameKey, .str "a".toList)]], [], [.str "a".toList], []⟩ :=
  store_user_score_absent_noop _ _ _ (by decide)

/-! ## C10: `recordMetrics` without a usable identifier is a no-op -/

/-- C10: for every metrics record whose `username` field is absent or the
empty string, `store_user_metrics` leaves the entire memory state unchanged
(the code returns before touching any collection; Python truthiness makes
both an absent key, whose `get` yields `None`, and `""` falsy). -/
theorem store_user_metrics_unnamed_noop (mem : AgentMemory) (m : Dict)
    (h : dictLookup usernameKey m = none ∨ dictLookup usernameKey m = some (.str [])) :
    store_user_metrics mem m = mem := by
  unfold store_user_metrics
  rcases h with h | h <;> simp [dictGet, h, jsonTruthy]

/-- Witness for C10: a record with an empty username and one with no username
key at all both leave a nonempty concrete memory unchanged. -/
theorem store_user_metrics_unnamed_noop_witness :
    store_user_metrics ⟨[], ["x".toList], [.str "a".toList], []⟩
        [(usernameKey, .str []), (followersKey, .num 3)]
      = ⟨[], ["x".toList], [.str "a".toList], []⟩ :=
  store_user_metrics_unnamed_noop _ _ (by decide)

/-! ## C9: scoring only touches the `score` field -/

/-- C9: whenever `calculate_user_score` returns a record for an input without
an error marker, that record agrees with the input on every key other than
`score` (the code mutates only `metrics["score"]`). -/
theorem calculate_user_score_frame (R R' : Dict)
    (herr : dictLookup errorKey R = none)
    (h : calculate_user_score R = some R') :
    ∀ k, k ≠ scoreKey → dictLookup k R' = dictLookup k R := by
  intro k hk
  unfold calculate_user_score at h
  rw [herr] at h
  simp only [Option.isSome_none, Bool.false_eq_true, if_false, Option.bind_eq_bind] at h
  rcases hfc : (dictLookup followersKey R).bind asNumber with _ | fc <;> rw [hfc] at h
  · simp at h
  rcases her : (dictLookup engagementKey R).bind asNumber with _ | er <;> rw [her] at h
  · simp at h
  rcases hmc : (dictLookup mediaKey R).bind asNumber with _ | mc <;> rw [hmc] at h
  · simp at h
  simp only [Option.some_bind, Option.some.injEq] at h
  subst h
  exact dictLookup_dictSet_ne R scoreKey k _ hk

/-- The record of spec scenario 5 (`alice`, 5000 followers, engagement 3.0,
20 media posts). -/
def aliceR : Dict :=
  [(usernameKey, .str "alice".toList), (followersKey, .num 5000),
   (engagementKey, .num 3), (mediaKey, .num 20)]

/-- `aliceR` scored: the weighted score is `50*0.4 + 30*0.5 + 20*0.1 = 37`. -/
def aliceScored : Dict := aliceR ++ [(scoreKey, .num 37)]

theorem calculate_user_score_alice : calculate_user_score aliceR = some aliceScored := by
  have h1 : dictLookup errorKey aliceR = none := rfl
  have h2 : (dictLookup followersKey aliceR).bind asNumber = some 5000 := rfl
  have h3 : (dictLookup engagementKey aliceR).bind asNumber = some 3 := rfl
  have h4 : (dictLookup mediaKey aliceR).bind asNumber = some 20 := rfl
  unfold calculate_user_score
  rw [h1]
  simp only [Option.isSome_none, Bool.false_eq_true, if_false, Option.bind_eq_bind]
  rw [h2, h3, h4]
  simp only [Option.some_bind, Option.some.injEq]
  have hsc : round2 ((min 100 ((5000:ℚ) / 1000 * 10)) * (4/10) + (min 100 ((3:ℚ) * 10)) * (5/10)
      + (min 100 ((20:ℚ) / 10 * 10)) * (1/10)) = 37 := by
    norm_num [min_def, round2, roundHalfEven]
  rw [hsc]
  rfl

/-- Witness for C9 at `aliceR` and the key `followers_count`. -/
theorem calculate_user_score_frame_witness :
    dictLookup followersKey aliceScored = dictLookup followersKey aliceR :=
  calculate_user_score_frame aliceR aliceScored rfl calculate_user_score_alice
    followersKey (by decide)

/-! ## C2: range of the computed score -/

theorem roundHalfEven_ge_floor (t : ℚ) : ⌊t⌋ ≤ roundHalfEven t := by
  unfold roundHalfEven
  dsimp only
  split_ifs <;> omega

theorem roundHalfEven_le_of_le (t : ℚ) (B : ℤ) (h : t ≤ B) : roundHalfEven t ≤ B := by
  unfold roundHalfEven
  have hfl : ⌊t⌋ ≤ B := by
    calc ⌊t⌋ ≤ ⌊(B : ℚ)⌋ := Int.floor_le_floor h
    _ = B := Int.floor_intCast B
  dsimp only
  split_ifs with h1 h2 h3
  · exact hfl
  all_goals {
    have hge : (1 : ℚ)/2 ≤ t - ⌊t⌋ := le_of_not_lt h1
    have hfq : (⌊t⌋ : ℚ) ≤ (B : ℚ) - 1/2 := by
      have := Int.floor_le t
      linarith
    have : (⌊t⌋ : ℚ) < (B : ℚ) := by linarith
    have : ⌊t⌋ < B := by exact_mod_cast this
    omega }

theorem round2_nonneg (q : ℚ) (h : 0 ≤ q) : 0 ≤ round2 q := by
  unfold round2
  have hf : (0 : ℤ) ≤ ⌊q * 100⌋ := Int.floor_nonneg.mpr (by positivity)
  have hr : (0 : ℤ) ≤ roundHalfEven (q * 100) := le_trans hf (roundHalfEven_ge_floor _)
  have : (0 : ℚ) ≤ (roundHalfEven (q * 100) : ℚ) := by exact_mod_cast hr
  positivity

theorem round2_le_100 (q : ℚ) (h : q ≤ 100) : round2 q ≤ 100 := by
  unfold round2
  have hr : roundHalfEven (q * 100) ≤ (10000 : ℤ) :=
    roundHalfEven_le_of_le _ 10000 (by push_cast; linarith)
  have : (roundHalfEven (q * 100) : ℚ) ≤ 10000 := by exact_mod_cast hr
  linarith

/-- C2 (amended): a record with an error marker is returned unchanged; a
record without one whose three metric fields are present, numeric and
non-negative gets a score in `[0, 100]` stored under `score`.  (The
non-negativity restriction is forced: negative metric values drive the
sub-scores, which are only clamped from above, below 0 — see the
counterexample.) -/
theorem calculate_user_score_range (R : Dict) :
    ((dictLookup errorKey R).isSome = true → calculate_user_score R = some R) ∧
    (∀ fc er mc : ℚ,
      dictLookup errorKey R = none →
      (dictLookup followersKey R).bind asNumber = some fc →
      (dictLookup engagementKey R).bind asNumber = some er →
      (dictLookup mediaKey R).bind asNumber = some mc →
      0 ≤ fc → 0 ≤ er → 0 ≤ mc →
      ∃ sc : ℚ, calculate_user_score R = some (dictSet R scoreKey (.num sc)) ∧
        0 ≤ sc ∧ sc ≤ 100) := by
  constructor
  · intro herr
    unfold calculate_user_score
    rw [herr]
    rfl
  · intro fc er mc herr hfc her hmc h0fc h0er h0mc
    unfold calculate_user_score
    rw [herr]
    simp only [Option.isSome_none, Bool.false_eq_true, if_false, Option.bind_eq_bind]
    rw [hfc, her, hmc]
    simp only [Option.some_bind]
    refine ⟨_, rfl, ?_, ?_⟩
    · apply round2_nonneg
      have h1 : 0 ≤ min (100 : ℚ) (fc / 1000 * 10) := le_min (by norm_num) (by positivity)
      have h2 : 0 ≤ min (100 : ℚ) (er * 10) := le_min (by norm_num) (by positivity)
      have h3 : 0 ≤ min (100 : ℚ) (mc / 10 * 10) := le_min (by norm_num) (by positivity)
      have := min_le_left (100 : ℚ) (fc / 1000 * 10)
      positivity
    · apply round2_le_100
      have h1 : min (100 : ℚ) (fc / 1000 * 10) ≤ 100 := min_le_left _ _
      have h2 : min (100 : ℚ) (er * 10) ≤ 100 := min_le_left _ _
      have h3 : min (100 : ℚ) (mc / 10 * 10) ≤ 100 := min_le_left _ _
      linarith

/-- A record with a negative follower count and no error marker. -/
def negFollowersR : Dict :=
  [(usernameKey, .str "u".toList), (followersKey, .num (-100000)),
   (engagementKey, .num 0), (mediaKey, .num 0)]

/-- Counterexample to C2 as stated: `negFollowersR` carries no error marker,
yet its computed score is `-400`, outside `[0, 100]` (the sub-scores are
clamped only from above by `min(100, ...)`). -/
theorem calculate_user_score_range_cex :
    dictLookup errorKey negFollowersR = none ∧
    (calculate_user_score negFollowersR).bind (dictLookup scoreKey) = some (.num (-400)) ∧
    ¬ (0 : ℚ) ≤ -400 := by
  refine ⟨rfl, ?_, by norm_num⟩
  have h1 : dictLookup errorKey negFollowersR = none := rfl
  have h2 : dictLookup followersKey negFollowersR = some (.num (-100000)) := rfl
  have h3 : dictLookup engagementKey negFollowersR = some (.num 0) := rfl
  have h4 : dictLookup mediaKey negFollowersR = some (.num 0) := rfl
  simp [calculate_user_score, h1, h2, h3, h4, asNumber, dictLookup_dictSet_self]
  norm_num [round2, roundHalfEven, min_def]

/-- Witness for the amended C2: an error-marked record passes through
unchanged, and the scenario record `aliceR` gets a concrete in-range
score. -/
theorem calculate_user_score_range_witness :
    calculate_user_score [(errorKey, .str "boom".toList)]
        = some [(errorKey, .str "boom".toList)] ∧
    ∃ sc : ℚ, calculate_user_score aliceR = some (dictSet aliceR scoreKey (.num sc)) ∧
      0 ≤ sc ∧ sc ≤ 100 :=
  ⟨(calculate_user_score_range [(errorKey, .str "boom".toList)]).1 (by decide),
   (calculate_user_score_range aliceR).2 5000 3 20 rfl rfl rfl rfl
     (by norm_num) (by norm_num) (by norm_num)⟩

/-! ## C4: ranking is a stable, non-increasing, idempotent sort -/

/-- Numeric JSON values (a present non-numeric score would make the Python
sort raise `TypeError`; the ranking theorem excludes that by hypothesis). -/
def isNumJson : Json → Bool
  | .num _ => true
  | _ => false

theorem rankLE_trans (a b c : Dict) (h1 : rankLE a b) (h2 : rankLE b c) : rankLE a c := by
  simp only [rankLE, decide_eq_true_eq] at *
  exact le_trans h2 h1

theorem rankLE_total (a b : Dict) : rankLE a b || rankLE b a := by
  simp only [rankLE]
  rcases le_total (scoreKeyQ b) (scoreKeyQ a) with h | h <;> simp [h]

/-- C4: `rank_users` permutes its input, is non-increasing in the score key
(missing scores count as 0 via `scoreKeyQ`), is stable (the records of any
fixed score value appear in the same order as in the input), and is
idempotent.  The hypothesis keeps the statement inside the domain where the
Python comparison does not raise: any present `score` value is numeric. -/
theorem rank_users_spec (L : List Dict)
    (hnum : ∀ r ∈ L, (dictLookup scoreKey r).all isNumJson = true) :
    List.Perm (rank_users L) L ∧
    (rank_users L).Pairwise (fun a b => scoreKeyQ b ≤ scoreKeyQ a) ∧
    (∀ q : ℚ, (rank_users L).filter (fun r => scoreKeyQ r == q)
      = L.filter (fun r => scoreKeyQ r == q)) ∧
    rank_users (rank_users L) = rank_users L := by
  have hperm : List.Perm (rank_users L) L := List.mergeSort_perm L _
  have hsorted : (rank_users L).Pairwise (fun a b => rankLE a b = true) := by
    exact @List.sorted_mergeSort Dict rankLE rankLE_trans
      (fun a b => rankLE_total a b) L
  refine ⟨hperm, ?_, ?_, ?_⟩
  · exact hsorted.imp (fun h => by simpa [rankLE] using h)
  · intro q
    set p : Dict → Bool := fun r => scoreKeyQ r == q with hp
    have hmemq : ∀ r ∈ L.filter p, scoreKeyQ r = q := by
      intro r hr
      have := List.of_mem_filter hr
      simpa [hp] using this
    have hBsorted : (L.filter p).Pairwise (fun a b => rankLE a b = true) := by
      apply List.pairwise_of_forall_mem_list
      intro a ha b hb
      simp [rankLE, hmemq a ha, hmemq b hb]
    have hBsub : List.Sublist (L.filter p) (rank_users L) :=
      List.sublist_mergeSort rankLE_trans (fun a b => rankLE_total a b) hBsorted
        (List.filter_sublist L)
    have hsubf : List.Sublist (L.filter p) ((rank_users L).filter p) := by
      have h1 : (L.filter p).filter p = L.filter p :=
        List.filter_eq_self.mpr (fun a ha => List.of_mem_filter ha)
      rw [← h1]
      exact hBsub.filter p
    have hlen : ((rank_users L).filter p).length = (L.filter p).length :=
      (hperm.filter p).length_eq
    exact (hsubf.eq_of_length hlen.symm).symm
  · show (rank_users L).mergeSort rankLE = rank_users L
    exact List.mergeSort_of_sorted hsorted

/-- Ranking input with a tie (records `a` and `b` both score 50) and a
missing score (record `d`, sorting as 0). -/
def rankWitnessL : List Dict :=
  [[(usernameKey, .str "a".toList), (scoreKey, .num 50)],
   [(usernameKey, .str "b".toList), (scoreKey, .num 50)],
   [(usernameKey, .str "d".toList)],
   [(usernameKey, .str "c".toList), (scoreKey, .num 80)]]

/-- Witness for C4 at `rankWitnessL`. -/
theorem rank_users_spec_witness :
    List.Perm (rank_users rankWitnessL) rankWitnessL ∧
    (rank_users rankWitnessL).Pairwise (fun a b => scoreKeyQ b ≤ scoreKeyQ a) ∧
    (∀ q : ℚ, (rank_users rankWitnessL).filter (fun r => scoreKeyQ r == q)
      = rankWitnessL.filter (fun r => scoreKeyQ r == q)) ∧
    rank_users (rank_users rankWitnessL) = rank_users rankWitnessL :=
  rank_users_spec rankWitnessL (by decide)


/-! ## C5: no repeated fetch for a processed-and-scored identifier -/

/-- C5: whenever the decision layer receives a `get_user_metrics` tool-call
whose extracted username is both in the processed set and in the scored set,
its output is the skip note (a `thinking` decision), not a fetch
tool-invocation. -/
theorem decision_note_when_scored (jsonLoads : Str → Option Json)
    (memory : AgentMemory) (usernames : List Str) (params : PyParams)
    (h1 : extractUsername params ∈ memory.processed_usernames)
    (h2 : extractUsername params ∈ memory.scored_users) :
    determine_next_action jsonLoads (.function_call "get_user_metrics".toList params)
        memory usernames
      = ⟨"thinking".toList, .thinkingP (alreadyDoneMsg (extractUsername params))⟩ := by
  unfold determine_next_action
  simp [h1, h2]

/-- Witness for C5: a memory where `alice` is processed and scored. -/
theorem decision_note_when_scored_witness :
    determine_next_action (fun _ => none)
        (.function_call "get_user_metrics".toList (.str "alice".toList))
        ⟨[[(usernameKey, .str "alice".toList), (scoreKey, .num 37)]], [],
          [.str "alice".toList], [.str "alice".toList]⟩ ["alice".toList]
      = ⟨"thinking".toList, .thinkingP (alreadyDoneMsg (.str "alice".toList))⟩ :=
  decision_note_when_scored (fun _ => none) _ _ (.str "alice".toList)
    (by decide) (by decide)

/-! ## C1: the decision-layer verifier is an exact, total check -/

/-- C1: `verify_json_output` succeeds exactly when the content matches the
terminal-marker array pattern, the matched literal decodes, and the first
decoded element passes the schema validation; every other content yields
`false`.  The function is total (never raises): decode failure, an empty or
non-array decode result, and validation failure are all caught. -/
theorem verify_json_output_iff (jsonLoads : Str → Option Json) (content : Str) :
    verify_json_output jsonLoads content = true ↔
      ∃ js j, finalAnswerMatch content = some js ∧ jsonLoads js = some j ∧
        ∃ x rest, j = Json.arr (x :: rest) ∧ validateProfile x = true := by
  unfold verify_json_output
  rcases hm : finalAnswerMatch content with _ | js
  · simp
  · simp only [Option.some.injEq]
    rcases hj : jsonLoads js with _ | j
    · simp [hj]
    · rcases j with _ | _ | _ | _ | xs | _
      case arr => rcases xs with _ | ⟨x, rest⟩ <;> simp [hj]
      all_goals simp [hj]

/-- The legacy `verify_the_json_output` of `insta_agent.py` differs from the
decision-layer verifier exactly where the spec flags its open question: on a
shape-validation failure (here: first element `1` is not a valid profile) the
legacy routine raises (`none`) where `verify_json_output` returns `false`,
and on a decode failure it raises as well. -/
theorem legacy_verifier_not_fail_closed :
    verify_the_json_output (fun _ => some (.arr [.num 1])) "FINAL_ANSWER: [1]".toList = none ∧
    verify_json_output (fun _ => some (.arr [.num 1])) "FINAL_ANSWER: [1]".toList = false ∧
    verify_the_json_output (fun _ => none) "FINAL_ANSWER: [1]".toList = none ∧
    verify_json_output (fun _ => none) "FINAL_ANSWER: [1]".toList = false := by
  decide


/-! ## Memory invariants (C3, C7) -/

/-- The scored set is contained in the processed set. -/
def scoredSubsetProcessed (mem : AgentMemory) : Prop :=
  ∀ u ∈ mem.scored_users, u ∈ mem.processed_usernames

/-- A record carries a present, non-null score field. -/
def hasNonNullScore (r : Dict) : Bool :=
  match dictLookup scoreKey r with
  | some v => v != .null
  | none => false

/-- Every scored identifier owns a record with a non-null score field. -/
def scoredHaveScore (mem : AgentMemory) : Prop :=
  ∀ u ∈ mem.scored_users, ∃ r ∈ mem.users_metrics,
    dictGet r usernameKey = u ∧ hasNonNullScore r = true

/-- Auxiliary invariant: every record's username is in the processed set. -/
def recordsProcessed (mem : AgentMemory) : Prop :=
  ∀ r ∈ mem.users_metrics, dictGet r usernameKey ∈ mem.processed_usernames

theorem insertSet_self_mem (x : Json) (s : List Json) : x ∈ insertSet x s := by
  unfold insertSet
  split_ifs with h
  · exact h
  · simp

theorem insertSet_mem_of_mem (x y : Json) (s : List Json) (h : y ∈ s) :
    y ∈ insertSet x s := by
  unfold insertSet
  split_ifs <;> simp [h]

theorem mem_insertSet (x y : Json) (s : List Json) :
    y ∈ insertSet x s ↔ y = x ∨ y ∈ s := by
  unfold insertSet
  split_ifs with h
  · constructor
    · exact fun hy => Or.inr hy
    · rintro (rfl | hy)
      · exact h
      · exact hy
  · simp [or_comm]

theorem updateFirst_mem_of {u : Json} {m : Dict} :
    ∀ {l l' : List Dict}, updateFirst u m l = some l' → ∀ r' ∈ l', r' = m ∨ r' ∈ l := by
  intro l
  induction l with
  | nil => intro l' h; simp [updateFirst] at h
  | cons r rs ih =>
      intro l' h
      simp only [updateFirst] at h
      by_cases hc : dictGet r usernameKey = u
      · rw [if_pos hc] at h
        obtain rfl := Option.some.inj h
        intro r' hr'
        rcases List.mem_cons.mp hr' with rfl | hr'
        · exact Or.inl rfl
        · exact Or.inr (List.mem_cons_of_mem _ hr')
      · rw [if_neg hc] at h
        rcases hrec : updateFirst u m rs with _ | l''
        · rw [hrec] at h; simp at h
        · rw [hrec] at h
          simp only [Option.map_some', Option.some.injEq] at h
          subst h
          intro r' hr'
          rcases List.mem_cons.mp hr' with rfl | hr'
          · exact Or.inr (List.mem_cons_self _ _)
          · rcases ih hrec r' hr' with h1 | h1
            · exact Or.inl h1
            · exact Or.inr (List.mem_cons_of_mem _ h1)

theorem updateFirst_self_mem {u : Json} {m : Dict} :
    ∀ {l l' : List Dict}, updateFirst u m l = some l' → m ∈ l' := by
  intro l
  induction l with
  | nil => intro l' h; simp [updateFirst] at h
  | cons r rs ih =>
      intro l' h
      simp only [updateFirst] at h
      by_cases hc : dictGet r usernameKey = u
      · rw [if_pos hc] at h
        obtain rfl := Option.some.inj h
        exact List.mem_cons_self _ _
      · rw [if_neg hc] at h
        rcases hrec : updateFirst u m rs with _ | l''
        · rw [hrec] at h; simp at h
        · rw [hrec] at h
          simp only [Option.map_some', Option.some.injEq] at h
          subst h
          exact List.mem_cons_of_mem _ (ih hrec)

theorem updateFirst_keep {u : Json} {m : Dict} :
    ∀ {l l' : List Dict}, updateFirst u m l = some l' →
      ∀ r ∈ l, dictGet r usernameKey ≠ u → r ∈ l' := by
  intro l
  induction l with
  | nil => intro l' h; simp [updateFirst] at h
  | cons r rs ih =>
      intro l' h
      simp only [updateFirst] at h
      by_cases hc : dictGet r usernameKey = u
      · rw [if_pos hc] at h
        obtain rfl := Option.some.inj h
        intro r' hr' hne
        rcases List.mem_cons.mp hr' with rfl | hr'
        · exact absurd hc hne
        · exact List.mem_cons_of_mem _ hr'
      · rw [if_neg hc] at h
        rcases hrec : updateFirst u m rs with _ | l''
        · rw [hrec] at h; simp at h
        · rw [hrec] at h
          simp only [Option.map_some', Option.some.injEq] at h
          subst h
          intro r' hr' hne
          rcases List.mem_cons.mp hr' with rfl | hr'
          · exact List.mem_cons_self _ _
          · exact List.mem_cons_of_mem _ (ih hrec r' hr' hne)

theorem updateFirst_exists_match {u : Json} {m : Dict} :
    ∀ {l l' : List Dict}, updateFirst u m l = some l' →
      ∃ r ∈ l, dictGet r usernameKey = u := by
  intro l
  induction l with
  | nil => intro l' h; simp [updateFirst] at h
  | cons r rs ih =>
      intro l' h
      simp only [updateFirst] at h
      by_cases hc : dictGet r usernameKey = u
      · exact ⟨r, List.mem_cons_self _ _, hc⟩
      · rw [if_neg hc] at h
        rcases hrec : updateFirst u m rs with _ | l''
        · rw [hrec] at h; simp at h
        · obtain ⟨r', hr', hu⟩ := ih hrec
          exact ⟨r', List.mem_cons_of_mem _ hr', hu⟩

theorem usernameKey_ne_scoreKey : usernameKey ≠ scoreKey := by decide

theorem dictGet_dictSet_score (r : Dict) (v : Json) :
    dictGet (dictSet r scoreKey v) usernameKey = dictGet r usernameKey := by
  unfold dictGet
  rw [dictLookup_dictSet_ne r scoreKey usernameKey v usernameKey_ne_scoreKey]

theorem hasNonNullScore_dictSet (r : Dict) (q : ℚ) :
    hasNonNullScore (dictSet r scoreKey (.num q)) = true := by
  unfold hasNonNullScore
  rw [dictLookup_dictSet_self]
  simp

theorem setScoreFirst_mem_of {u : Json} {q : ℚ} :
    ∀ {l l' : List Dict}, setScoreFirst u q l = some l' →
      ∀ r' ∈ l', r' ∈ l ∨ ∃ r ∈ l, dictGet r usernameKey = u ∧ r' = dictSet r scoreKey (.num q) := by
  intro l
  induction l with
  | nil => intro l' h; simp [setScoreFirst] at h
  | cons r rs ih =>
      intro l' h
      simp only [setScoreFirst] at h
      by_cases hc : dictGet r usernameKey = u
      · rw [if_pos hc] at h
        obtain rfl := Option.some.inj h
        intro r' hr'
        rcases List.mem_cons.mp hr' with rfl | hr'
        · exact Or.inr ⟨r, List.mem_cons_self _ _, hc, rfl⟩
        · exact Or.inl (List.mem_cons_of_mem _ hr')
      · rw [if_neg hc] at h
        rcases hrec : setScoreFirst u q rs with _ | l''
        · rw [hrec] at h; simp at h
        · rw [hrec] at h
          simp only [Option.map_some', Option.some.injEq] at h
          subst h
          intro r' hr'
          rcases List.mem_cons.mp hr' with rfl | hr'
          · exact Or.inl (List.mem_cons_self _ _)
          · rcases ih hrec r' hr' with h1 | ⟨r₀, hr₀, hu₀, he₀⟩
            · exact Or.inl (List.mem_cons_of_mem _ h1)
            · exact Or.inr ⟨r₀, List.mem_cons_of_mem _ hr₀, hu₀, he₀⟩

theorem setScoreFirst_new_witness {u : Json} {q : ℚ} :
    ∀ {l l' : List Dict}, setScoreFirst u q l = some l' →
      ∃ r' ∈ l', dictGet r' usernameKey = u ∧ hasNonNullScore r' = true := by
  intro l
  induction l with
  | nil => intro l' h; simp [setScoreFirst] at h
  | cons r rs ih =>
      intro l' h
      simp only [setScoreFirst] at h
      by_cases hc : dictGet r usernameKey = u
      · rw [if_pos hc] at h
        obtain rfl := Option.some.inj h
        refine ⟨dictSet r scoreKey (.num q), List.mem_cons_self _ _, ?_, hasNonNullScore_dictSet r q⟩
        rw [dictGet_dictSet_score]
        exact hc
      · rw [if_neg hc] at h
        rcases hrec : setScoreFirst u q rs with _ | l''
        · rw [hrec] at h; simp at h
        · rw [hrec] at h
          simp only [Option.map_some', Option.some.injEq] at h
          subst h
          obtain ⟨r', hr', hu, hs⟩ := ih hrec
          exact ⟨r', List.mem_cons_of_mem _ hr', hu, hs⟩

theorem setScoreFirst_keep {u : Json} {q : ℚ} :
    ∀ {l l' : List Dict}, setScoreFirst u q l = some l' →
      ∀ r ∈ l, dictGet r usernameKey ≠ u → r ∈ l' := by
  intro l
  induction l with
  | nil => intro l' h; simp [setScoreFirst] at h
  | cons r rs ih =>
      intro l' h
      simp only [setScoreFirst] at h
      by_cases hc : dictGet r usernameKey = u
      · rw [if_pos hc] at h
        obtain rfl := Option.some.inj h
        intro r' hr' hne
        rcases List.mem_cons.mp hr' with rfl | hr'
        · exact absurd hc hne
        · exact List.mem_cons_of_mem _ hr'
      · rw [if_neg hc] at h
        rcases hrec : setScoreFirst u q rs with _ | l''
        · rw [hrec] at h; simp at h
        · rw [hrec] at h
          simp only [Option.map_some', Option.some.injEq] at h
          subst h
          intro r' hr' hne
          rcases List.mem_cons.mp hr' with rfl | hr'
          · exact List.mem_cons_self _ _
          · exact List.mem_cons_of_mem _ (ih hrec r' hr' hne)

theorem setScoreFirst_exists_match {u : Json} {q : ℚ} :
    ∀ {l l' : List Dict}, setScoreFirst u q l = some l' →
      ∃ r ∈ l, dictGet r usernameKey = u := by
  intro l
  induction l with
  | nil => intro l' h; simp [setScoreFirst] at h
  | cons r rs ih =>
      intro l' h
      simp only [setScoreFirst] at h
      by_cases hc : dictGet r usernameKey = u
      · exact ⟨r, List.mem_cons_self _ _, hc⟩
      · rw [if_neg hc] at h
        rcases hrec : setScoreFirst u q rs with _ | l''
        · rw [hrec] at h; simp at h
        · obtain ⟨r', hr', hu⟩ := ih hrec
          exact ⟨r', List.mem_cons_of_mem _ hr', hu⟩


/-- `recordsProcessed` is preserved by `store_user_metrics`. -/
theorem recordsProcessed_store_metrics (s : AgentMemory) (m : Dict)
    (h : recordsProcessed s) : recordsProcessed (store_user_metrics s m) := by
  unfold store_user_metrics
  dsimp only
  by_cases ht : jsonTruthy (dictGet m usernameKey)
  · rw [ht]
    simp only [Bool.not_true, Bool.false_eq_true, if_false]
    rcases hup : updateFirst (dictGet m usernameKey) m s.users_metrics with _ | l'
    · intro r hr
      simp only [List.mem_append, List.mem_singleton] at hr
      rcases hr with hr | rfl
      · exact insertSet_mem_of_mem _ _ _ (h r hr)
      · exact insertSet_self_mem _ _
    · intro r hr
      rcases updateFirst_mem_of hup r hr with rfl | hr'
      · obtain ⟨r₀, hr₀, hu₀⟩ := updateFirst_exists_match hup
        have := h r₀ hr₀
        rw [hu₀] at this
        exact this
      · exact h r hr'
  · rw [Bool.not_eq_true] at ht
    rw [ht]
    simp only [Bool.not_false, if_true]
    exact h

/-- `recordsProcessed` is preserved by `store_user_score`. -/
theorem recordsProcessed_store_score (s : AgentMemory) (u : Json) (q : ℚ)
    (h : recordsProcessed s) : recordsProcessed (store_user_score s u q) := by
  unfold store_user_score
  rcases hset : setScoreFirst u q s.users_metrics with _ | l'
  · exact h
  · intro r hr
    rcases setScoreFirst_mem_of hset r hr with hr' | ⟨r₀, hr₀, hu₀, rfl⟩
    · exact h r hr'
    · rw [dictGet_dictSet_score, hu₀]
      have := setScoreFirst_exists_match hset
      obtain ⟨r₁, hr₁, hu₁⟩ := this
      have := h r₁ hr₁
      rw [hu₁] at this
      exact this

/-- The `recordMetrics` side condition of the amended C3: a record for an
already-scored username must itself carry a non-null score (otherwise the
update branch erases the stored score while the username stays scored). -/
def keepsScore (mem : AgentMemory) (m : Dict) : Prop :=
  dictGet m usernameKey ∈ mem.scored_users → hasNonNullScore m = true

/-- States reachable from a fresh memory by `store_user_metrics` (under the
`keepsScore` side condition), `store_user_score` and
`add_iteration_response` — all memory operations except the wholesale
`update_users_list` replacement. -/
inductive ReachSafe : AgentMemory → Prop where
  | init : ReachSafe initMemory
  | metrics {s : AgentMemory} (m : Dict) : ReachSafe s → keepsScore s m →
      ReachSafe (store_user_metrics s m)
  | score {s : AgentMemory} (u : Json) (q : ℚ) : ReachSafe s →
      ReachSafe (store_user_score s u q)
  | response {s : AgentMemory} (r : Str) : ReachSafe s →
      ReachSafe (add_iteration_response s r)

/-- The full inductive invariant for C3. -/
theorem memory_invariant_aux (s : AgentMemory) (h : ReachSafe s) :
    recordsProcessed s ∧ scoredSubsetProcessed s ∧ scoredHaveScore s := by
  induction h with
  | init =>
      refine ⟨?_, ?_, ?_⟩ <;> intro x hx <;> simp [initMemory] at hx
  | @metrics s m _ hkeep ih =>
      obtain ⟨ihr, ihsub, ihsc⟩ := ih
      refine ⟨recordsProcessed_store_metrics s m ihr, ?_, ?_⟩ <;>
        unfold store_user_metrics <;> dsimp only <;>
        by_cases ht : jsonTruthy (dictGet m usernameKey)
      · rw [ht]
        simp only [Bool.not_true, Bool.false_eq_true, if_false]
        rcases hup : updateFirst (dictGet m usernameKey) m s.users_metrics with _ | l'
        · intro w hw
          exact insertSet_mem_of_mem _ _ _ (ihsub w hw)
        · exact ihsub
      · rw [Bool.not_eq_true] at ht
        rw [ht]
        exact ihsub
      · rw [ht]
        simp only [Bool.not_true, Bool.false_eq_true, if_false]
        rcases hup : updateFirst (dictGet m usernameKey) m s.users_metrics with _ | l'
        · intro w hw
          obtain ⟨r, hr, hu, hs⟩ := ihsc w hw
          exact ⟨r, List.mem_append_left _ hr, hu, hs⟩
        · intro w hw
          by_cases hwu : w = dictGet m usernameKey
          · subst hwu
            refine ⟨m, updateFirst_self_mem hup, rfl, ?_⟩
            exact hkeep hw
          · obtain ⟨r, hr, hu, hs⟩ := ihsc w hw
            have hne : dictGet r usernameKey ≠ dictGet m usernameKey := by
              rw [hu]; exact hwu
            exact ⟨r, updateFirst_keep hup r hr hne, hu, hs⟩
      · rw [Bool.not_eq_true] at ht
        rw [ht]
        exact ihsc
  | @score s u q _ ih =>
      obtain ⟨ihr, ihsub, ihsc⟩ := ih
      refine ⟨recordsProcessed_store_score s u q ihr, ?_, ?_⟩ <;>
        unfold store_user_score <;>
        rcases hset : setScoreFirst u q s.users_metrics with _ | l'
      · exact ihsub
      · intro w hw
        rcases (mem_insertSet u w s.scored_users).mp hw with rfl | hw'
        · obtain ⟨r, hr, hu⟩ := setScoreFirst_exists_match hset
          have := ihr r hr
          rw [hu] at this
          exact this
        · exact ihsub w hw'
      · exact ihsc
      · intro w hw
        rcases (mem_insertSet u w s.scored_users).mp hw with rfl | hw'
        · obtain ⟨r', hr', hu, hs⟩ := setScoreFirst_new_witness hset
          exact ⟨r', hr', hu, hs⟩
        · by_cases hwu : w = u
          · subst hwu
            obtain ⟨r', hr', hu, hs⟩ := setScoreFirst_new_witness hset
            exact ⟨r', hr', hu, hs⟩
          · obtain ⟨r, hr, hu, hs⟩ := ihsc w hw'
            have hne : dictGet r usernameKey ≠ u := by
              rw [hu]; exact hwu
            exact ⟨r, setScoreFirst_keep hset r hr hne, hu, hs⟩
  | @response s r _ ih =>
      obtain ⟨ihr, ihsub, ihsc⟩ := ih
      exact ⟨ihr, ihsub, ihsc⟩

/-- C3 (amended): in every state reachable from a fresh memory by
`recordMetrics`, `recordScore` and `appendTranscript` — excluding the
wholesale `replaceAll` — where every `recordMetrics` call for an
already-scored identifier carries a non-null score field, the scored set is
contained in the processed set and every scored identifier has a record with
a non-null score.  (Both exclusions are forced by the counterexample.) -/
theorem memory_invariant (s : AgentMemory) (h : ReachSafe s) :
    scoredSubsetProcessed s ∧ scoredHaveScore s :=
  ⟨(memory_invariant_aux s h).2.1, (memory_invariant_aux s h).2.2⟩

/-- The operation sequence violating C3 as stated: `replaceAll` installs a
record behind the processed set's back, `recordScore` then marks `bob` scored
though unprocessed, and a subsequent `recordMetrics` replaces the record by a
score-less one. -/
def memCexOps : List MemOp :=
  [.updateList [[(usernameKey, .str "bob".toList)]],
   .storeScore (.str "bob".toList) 5,
   .storeMetrics [(usernameKey, .str "bob".toList)]]

/-- Counterexample to C3 as stated: after `memCexOps` (a sequence of the four
memory operations from fresh memory), `bob` is scored but not processed, and
no record with a non-null score exists for it — both invariant halves fail. -/
theorem memory_invariant_cex :
    Json.str "bob".toList ∈ (applyOps memCexOps).scored_users ∧
    Json.str "bob".toList ∉ (applyOps memCexOps).processed_usernames ∧
    ¬ scoredHaveScore (applyOps memCexOps) := by
  refine ⟨by decide, by decide, ?_⟩
  intro hinv
  have := hinv (.str "bob".toList) (by decide)
  revert this
  decide

/-- Witness for the amended C3 at a concrete two-step session. -/
theorem memory_invariant_witness :
    scoredSubsetProcessed (store_user_score
        (store_user_metrics initMemory [(usernameKey, .str "a".toList)])
        (.str "a".toList) 5) ∧
    scoredHaveScore (store_user_score
        (store_user_metrics initMemory [(usernameKey, .str "a".toList)])
        (.str "a".toList) 5) :=
  memory_invariant _
    (ReachSafe.score _ 5 (ReachSafe.metrics _ ReachSafe.init
      (fun hmem => absurd hmem (by decide))))


/-! ## C7: `allProcessed` versus the recorded identifiers -/

/-- Does this operation pass a record with identifier `u` to
`recordMetrics`? -/
def storesUsername (u : Json) : MemOp → Bool
  | .storeMetrics m => dictGet m usernameKey == u
  | _ => false

/-- `u` was passed to `recordMetrics` (as the record's identifier field) by
some operation of the sequence. -/
def passedTo (ops : List MemOp) (u : Json) : Prop :=
  ∃ op ∈ ops, storesUsername u op = true

/-- Is this operation the wholesale `replaceAll`? -/
def isUpdateOp : MemOp → Bool
  | .updateList _ => true
  | _ => false

/-- A `recordMetrics` operation whose record carries a truthy identifier
(other operations count as well-formed trivially). -/
def metricsOpTruthy : MemOp → Bool
  | .storeMetrics m => jsonTruthy (dictGet m usernameKey)
  | _ => true

theorem passedTo_cons (op : MemOp) (ops : List MemOp) (u : Json) :
    passedTo (op :: ops) u ↔ storesUsername u op = true ∨ passedTo ops u := by
  unfold passedTo
  simp

/-- Membership step for `store_user_metrics` with a truthy username, under
the `recordsProcessed` invariant: the processed set grows by exactly the
record's username (the update branch leaves the set unchanged, but its
username was already present). -/
theorem mem_processed_store_metrics (s : AgentMemory) (m : Dict) (u : Json)
    (hrec : recordsProcessed s) (ht : jsonTruthy (dictGet m usernameKey) = true) :
    (u ∈ (store_user_metrics s m).processed_usernames ↔
      u ∈ s.processed_usernames ∨ u = dictGet m usernameKey) := by
  unfold store_user_metrics
  dsimp only
  rw [ht]
  simp only [Bool.not_true, Bool.false_eq_true, if_false]
  rcases hup : updateFirst (dictGet m usernameKey) m s.users_metrics with _ | l'
  · exact (mem_insertSet (dictGet m usernameKey) u s.processed_usernames).trans or_comm
  · constructor
    · exact fun h => Or.inl h
    · rintro (h | rfl)
      · exact h
      · obtain ⟨r, hr, hu⟩ := updateFirst_exists_match hup
        have := hrec r hr
        rw [hu] at this
        exact this

theorem mem_processed_store_score (s : AgentMemory) (v : Json) (q : ℚ) (u : Json) :
    (u ∈ (store_user_score s v q).processed_usernames ↔ u ∈ s.processed_usernames) := by
  unfold store_user_score
  rcases setScoreFirst v q s.users_metrics with _ | l' <;> rfl

/-- Generalized characterization of the processed set along a fold from any
state satisfying the auxiliary invariant. -/
theorem mem_processed_foldl (ops : List MemOp) :
    ∀ (s : AgentMemory), recordsProcessed s →
    (∀ op ∈ ops, isUpdateOp op = false) →
    (∀ op ∈ ops, metricsOpTruthy op = true) →
    ∀ u : Json,
      (u ∈ (ops.foldl applyOp s).processed_usernames ↔
        u ∈ s.processed_usernames ∨ passedTo ops u) := by
  induction ops with
  | nil =>
      intro s hrec _ _ u
      simp [passedTo]
  | cons op ops ih =>
      intro s hrec hup htr u
      have hup' : ∀ o ∈ ops, isUpdateOp o = false := fun o ho => hup o (List.mem_cons_of_mem _ ho)
      have htr' : ∀ o ∈ ops, metricsOpTruthy o = true := fun o ho => htr o (List.mem_cons_of_mem _ ho)
      rw [List.foldl_cons, passedTo_cons]
      cases op with
      | storeMetrics m =>
          have ht : jsonTruthy (dictGet m usernameKey) = true :=
            htr _ (List.mem_cons_self _ _)
          have hrec' : recordsProcessed (store_user_metrics s m) :=
            recordsProcessed_store_metrics s m hrec
          simp only [applyOp]
          rw [ih _ hrec' hup' htr' u]
          rw [mem_processed_store_metrics s m u hrec ht]
          unfold storesUsername
          simp only [beq_iff_eq]
          constructor
          · rintro ((h | h) | h)
            · exact Or.inl h
            · exact Or.inr (Or.inl h.symm)
            · exact Or.inr (Or.inr h)
          · rintro (h | h | h)
            · exact Or.inl (Or.inl h)
            · exact Or.inl (Or.inr h.symm)
            · exact Or.inr h
      | storeScore v q =>
          have hrec' : recordsProcessed (store_user_score s v q) :=
            recordsProcessed_store_score s v q hrec
          simp only [applyOp]
          rw [ih _ hrec' hup' htr' u]
          rw [mem_processed_store_score s v q u]
          unfold storesUsername
          simp
      | updateList l =>
          have := hup _ (List.mem_cons_self _ _)
          simp [isUpdateOp] at this
      | addResponse r =>
          have hrec' : recordsProcessed (add_iteration_response s r) := hrec
          simp only [applyOp]
          rw [ih _ hrec' hup' htr' u]
          unfold storesUsername
          simp [add_iteration_response]

/-- C7 (amended): for sequences that avoid `replaceAll` and whose
`recordMetrics` records all carry truthy identifiers, `allProcessed(T)` is
true iff every identifier of `T` was passed to `recordMetrics` at least once.
(Both restrictions are forced by the counterexample: `replaceAll` can install
a record whose later `recordMetrics` update never marks it processed.) -/
theorem all_users_processed_iff (ops : List MemOp) (T : List Json)
    (hup : ∀ op ∈ ops, isUpdateOp op = false)
    (htr : ∀ op ∈ ops, metricsOpTruthy op = true) :
    (all_users_processed (applyOps ops) T = true ↔ ∀ u ∈ T, passedTo ops u) := by
  unfold all_users_processed applyOps
  rw [List.all_eq_true]
  have hinit : recordsProcessed initMemory := by
    intro r hr
    simp [initMemory] at hr
  constructor
  · intro h u hu
    have := h u hu
    rw [decide_eq_true_eq] at this
    rcases (mem_processed_foldl ops initMemory hinit hup htr u).mp this with h0 | h0
    · simp [initMemory] at h0
    · exact h0
  · intro h u hu
    rw [decide_eq_true_eq]
    exact (mem_processed_foldl ops initMemory hinit hup htr u).mpr (Or.inr (h u hu))

/-- The sequence violating C7 as stated: `replaceAll` installs a record for
`bob`; the later `recordMetrics` for `bob` takes the update branch and never
adds `bob` to the processed set. -/
def processedCexOps : List MemOp :=
  [.updateList [[(usernameKey, .str "bob".toList)]],
   .storeMetrics [(usernameKey, .str "bob".toList)]]

/-- Counterexample to C7 as stated: every identifier of the target set
`[bob]` has been passed to `recordMetrics`, yet `allProcessed` is false. -/
theorem all_users_processed_cex :
    (∀ u ∈ [Json.str "bob".toList], passedTo processedCexOps u) ∧
    all_users_processed (applyOps processedCexOps) [Json.str "bob".toList] = false := by
  constructor
  · intro u hu
    rcases List.mem_singleton.mp hu with rfl
    exact ⟨.storeMetrics [(usernameKey, .str "bob".toList)], by decide, by decide⟩
  · decide

/-- Witness for the amended C7 at a one-operation session. -/
theorem all_users_processed_iff_witness :
    all_users_processed (applyOps [MemOp.storeMetrics [(usernameKey, .str "a".toList)]])
        [Json.str "a".toList] = true
      ↔ ∀ u ∈ [Json.str "a".toList],
          passedTo [MemOp.storeMetrics [(usernameKey, .str "a".toList)]] u :=
  all_users_processed_iff _ _ (by decide) (by decide)


/-! ## C6: parsing of tool-call marked text -/

/-- Removal of trailing Python whitespace. -/
def stripTrail (s : Str) : Str :=
  (s.reverse.dropWhile isPyWS).reverse

theorem stripStr_eq_stripTrail_dropWhile (s : Str) :
    stripStr s = stripTrail (s.dropWhile isPyWS) := rfl

/-- Stripping a string that starts with a marker free of leading and
trailing whitespace keeps the marker intact and strips only the tail. -/
theorem stripStr_marker_append (p t : Str) (hp : p ≠ [])
    (h1 : p.dropWhile isPyWS = p) (h2 : p.reverse.dropWhile isPyWS = p.reverse) :
    stripStr (p ++ t) = p ++ stripTrail t := by
  rw [stripStr_eq_stripTrail_dropWhile]
  rw [List.dropWhile_append, h1]
  rw [if_neg (by simpa using hp)]
  unfold stripTrail
  rw [List.reverse_append, List.dropWhile_append, h2]
  rcases hdt : t.reverse.dropWhile isPyWS with _ | ⟨c, cs⟩
  · simp
  · simp

theorem isPrefixOf_append_self (p t : Str) : p.isPrefixOf (p ++ t) = true := by
  rw [ List.isPrefixOf_iff_prefix]
  exact List.prefix_append p t

theorem occurs_of_marked (pat t : Str) (hpat : pat ≠ [])
    (h : pat.isPrefixOf t = true) : occurs pat t = true := by
  cases t with
  | nil =>
      rw [ List.isPrefixOf_iff_prefix] at h
      rcases h with ⟨u, hu⟩
      simp at hu
      exact absurd hu.1 hpat
  | cons c cs =>
      unfold occurs firstOccur
      rw [h]
      rfl

theorem THmark_not_prefixOf_FCmark_append (v : Str) :
    THmark.isPrefixOf (FCmark ++ v) = false := by
  have hT : THmark = 'T' :: "HINKING:".toList := rfl
  have hF : FCmark ++ v = 'F' :: ("UNCTION_CALL:".toList ++ v) := rfl
  rw [hT, hF]
  rw [List.isPrefixOf]
  simp

/-- C6 (amended): for every raw text starting with the tool-call marker,
parsing always produces a tool-call intent whose name and params come from
removing every occurrence of the marker from the stripped text, stripping,
and splitting on the first pipe (both parts stripped); when no pipe remains,
params default to the empty string.  (The original claim splits the
remainder after the marker; the `replace`-all in the code also deletes later
occurrences of the marker from the params part, as the counterexample
shows.) -/
theorem parse_function_call_amended (raw : Str) (h : FCmark.isPrefixOf raw = true) :
    parse_llm_response raw =
      match splitFirstAt '|' (stripStr (removeAllSub FCmark (stripStr raw))) with
      | (name, some ps) => .function_call (stripStr name) (.str (stripStr ps))
      | (name, none) => .function_call (stripStr name) (.str []) := by
  rw [ List.isPrefixOf_iff_prefix] at h
  obtain ⟨u, rfl⟩ := h
  have hstrip : stripStr (FCmark ++ u) = FCmark ++ stripTrail u :=
    stripStr_marker_append FCmark u (by decide) (by decide) (by decide)
  unfold parse_llm_response
  dsimp only
  rw [hstrip]
  have hpre : FCmark.isPrefixOf (FCmark ++ stripTrail u) = true :=
    isPrefixOf_append_self FCmark (stripTrail u)
  rw [hpre]
  simp only [Bool.not_true, Bool.and_false, Bool.false_eq_true, if_false]
  unfold parseCore
  rw [THmark_not_prefixOf_FCmark_append]
  simp only [Bool.false_eq_true, if_false]
  rw [hpre]
  simp only [if_true]

/-- A tool-call line whose params part itself contains the marker again. -/
def mixedMarkerRaw : Str := "FUNCTION_CALL: foo|FUNCTION_CALL: bar".toList

/-- The split prescribed by the claim wording: the remainder after the
tool-call marker, split at its first pipe into a name and a params string
(both stripped, matching the stripping the code applies to the parts). -/
def claimRemainderSplit (raw : Str) : Str × Str :=
  match splitFirstAt '|' (raw.drop FCmark.length) with
  | (name, some ps) => (stripStr name, stripStr ps)
  | (name, none) => (stripStr name, [])

/-- Counterexample to C6 as stated: on `mixedMarkerRaw` the claim prescribes
params `"FUNCTION_CALL: bar"` (the remainder after the first pipe), but the
code's `replace`-all deletes the embedded marker and produces `"bar"`. -/
theorem parse_function_call_cex :
    parse_llm_response mixedMarkerRaw
        = .function_call "foo".toList (.str "bar".toList) ∧
    (claimRemainderSplit mixedMarkerRaw).2 = "FUNCTION_CALL: bar".toList ∧
    ("bar".toList : Str) ≠ "FUNCTION_CALL: bar".toList := by
  refine ⟨by decide, by decide, by decide⟩

/-- Witness for the amended C6 at a concrete tool-call line. -/
theorem parse_function_call_amended_witness :
    parse_llm_response "FUNCTION_CALL: get_user_metrics|alice".toList =
      match splitFirstAt '|' (stripStr (removeAllSub FCmark
          (stripStr "FUNCTION_CALL: get_user_metrics|alice".toList))) with
      | (name, some ps) => .function_call (stripStr name) (.str (stripStr ps))
      | (name, none) => .function_call (stripStr name) (.str []) :=
  parse_function_call_amended _ (by decide)


end Instoma
